import Mathlib

/-!
Shallow embedding of the `simple-vector` repository
(`src/simple-vector/simple_vector.h`, `src/simple-vector/array_ptr.h`).

The backing heap array of `ArrayPtr<Type>` is modelled as a `List α` whose
length is the allocated capacity.  `SimpleVector<Type>` is modelled as a
structure carrying that backing list together with the `size_` and
`capacity_` fields.  Elements are modelled with value semantics (a C++
move of an element reads its value; this matches trivially copyable
element types such as `int`); the one place where a move that empties its
source matters — the `ArrayPtr(size_t, Type&&)` constructor — is modelled
separately with an explicit move-residue function.

C-style write loops (`for (i = a; i < a+n; ++i) arr[i] = f(i);`) are
embedded by the recursive function `writeLoop`.
-/

namespace SimpleVec

/-- One C-style write loop: `for (k = 0; k < n; ++k) l[a+k] = f (a+k)`,
performed left to right by repeated `List.set`. -/
def writeLoop (f : Nat → α) (l : List α) (a : Nat) : Nat → List α
  | 0 => l
  | n + 1 => writeLoop f (l.set a (f a)) (a + 1) n

/-- The model of `SimpleVector<Type>`: the backing `ArrayPtr` buffer as a
list (its length is the allocated length), plus the `size_` and
`capacity_` fields. -/
structure SimpleVector (α : Type) where
  items : List α
  size : Nat
  capacity : Nat
  deriving DecidableEq, Repr

namespace SimpleVector

/-- The representation invariant tying the fields together: `size_` never
exceeds `capacity_` and the backing allocation has exactly `capacity_`
slots. -/
def WF (s : SimpleVector α) : Prop :=
  s.size ≤ s.capacity ∧ s.items.length = s.capacity

instance (s : SimpleVector α) : Decidable (WF s) := by
  unfold WF; infer_instance

/-- The logical content of the vector: the elements at indices
`[0, size)` of the backing store. -/
def toList (s : SimpleVector α) : List α := s.items.take s.size

/-- The default constructor `SimpleVector()`. -/
def empty : SimpleVector α := ⟨[], 0, 0⟩

/-- `GetSize()`. -/
def GetSize (s : SimpleVector α) : Nat := s.size

/-- `GetCapacity()`. -/
def GetCapacity (s : SimpleVector α) : Nat := s.capacity

/-- `IsEmpty()`. -/
def IsEmpty (s : SimpleVector α) : Bool := s.size == 0

/-- `IncreaseCapacity(new_capacity)`: allocate
`ArrayPtr<Type> new_items(new_capacity, Type())` (every slot filled from a
default value), move the live elements `[0, size_)` across with the loop
`new_items[i] = std::move(items_[i])`, swap the buffer in and record the
new capacity.  `d` stands for the default value `Type()`. -/
def IncreaseCapacity (d : α) (s : SimpleVector α) (newCapacity : Nat) :
    SimpleVector α :=
  ⟨writeLoop (fun i => s.items.getD i d) (List.replicate newCapacity d) 0 s.size,
    s.size, newCapacity⟩

/-- `Reserve(capacity)`: grow the backing store if the requested capacity
exceeds the current one, otherwise do nothing. -/
def Reserve (d : α) (s : SimpleVector α) (cap : Nat) : SimpleVector α :=
  if s.capacity < cap then IncreaseCapacity d s cap else s

/-- The private helper `IsSizeEqualsCapacity()`: when the buffer is full,
grow it to `capacity_ == 0 ? 1 : 2 * capacity_`. -/
def IsSizeEqualsCapacity (d : α) (s : SimpleVector α) : SimpleVector α :=
  if s.size = s.capacity then
    IncreaseCapacity d s (if s.capacity = 0 then 1 else 2 * s.capacity)
  else s

/-- `PushBack(item)`: grow if full, then `items_[size_] = item; ++size_;`. -/
def PushBack (d : α) (s : SimpleVector α) (item : α) : SimpleVector α :=
  let t := IsSizeEqualsCapacity d s
  ⟨t.items.set t.size item, t.size + 1, t.capacity⟩

/-- Effect of `std::move_backward(l+first, l+last, l+last+1)` on the
backing list: slots `[first+1, last+1]` receive the old contents of
`[first, last)`, every other slot is unchanged (the writes proceed from
the back, so each source is read before it is overwritten). -/
def stdMoveBackward (l : List α) (first last : Nat) : List α :=
  l.take (first + 1) ++ (l.drop first).take (last - first) ++ l.drop (last + 1)

/-- `Insert(pos, value)`: record `pos_index = pos - begin()`, grow if
full, shift `[pos_index, size_)` one slot towards the end with
`std::move_backward`, write the value, bump the size.  Returns the new
state together with the index of the returned iterator
(`new_pos - begin() = pos_index`). -/
def Insert (d : α) (s : SimpleVector α) (posIndex : Nat) (value : α) :
    SimpleVector α × Nat :=
  let t := IsSizeEqualsCapacity d s
  (⟨(stdMoveBackward t.items posIndex t.size).set posIndex value,
      t.size + 1, t.capacity⟩, posIndex)

/-- `PopBack()`: decrement the size when it is positive; the backing
store is untouched. -/
def PopBack (s : SimpleVector α) : SimpleVector α :=
  if 0 < s.size then ⟨s.items, s.size - 1, s.capacity⟩ else s

/-- Effect of the forward `std::move(l+first, l+last, l+dest)` used by
`Erase` (with `dest ≤ first`): slots `[dest, dest + (last-first))`
receive the old contents of `[first, last)`, every other slot is
unchanged. -/
def stdMoveForward (l : List α) (first last dest : Nat) : List α :=
  l.take dest ++ (l.drop first).take (last - first) ++ l.drop (dest + (last - first))

/-- `Erase(pos)`: when the vector is nonempty, shift `[index+1, size_)`
one slot towards the front and decrement the size; on an empty vector do
nothing.  Returns the new state together with the index of the returned
iterator (`(begin() + (pos - begin())) - begin() = index`). -/
def Erase (s : SimpleVector α) (posIndex : Nat) : SimpleVector α × Nat :=
  if 0 < s.size then
    (⟨stdMoveForward s.items (posIndex + 1) s.size posIndex,
        s.size - 1, s.capacity⟩, posIndex)
  else (s, posIndex)

/-- `Clear()`: `size_ = 0`, nothing else changes. -/
def Clear (s : SimpleVector α) : SimpleVector α := ⟨s.items, 0, s.capacity⟩

/-- `Resize(new_size)`: grow to `max(new_size, capacity_ * 2)` when the
request exceeds the capacity; otherwise, when it exceeds the size,
default-initialize the newly exposed slots (`items_[i] = std::move(Type())`);
finally `size_ = new_size`. -/
def Resize (d : α) (s : SimpleVector α) (newSize : Nat) : SimpleVector α :=
  if s.capacity < newSize then
    let t := IncreaseCapacity d s (max newSize (2 * s.capacity))
    ⟨t.items, newSize, t.capacity⟩
  else if s.size < newSize then
    ⟨writeLoop (fun _ => d) s.items s.size (newSize - s.size), newSize, s.capacity⟩
  else
    ⟨s.items, newSize, s.capacity⟩

/-- `At(index)`: throw `std::out_of_range("Out of range")` when
`index >= size_`, otherwise return `items_[index]`.  The method reads the
state and never modifies it, which the embedding reflects by returning
only the resulting value. -/
def At (d : α) (s : SimpleVector α) (index : Nat) : Except String α :=
  if s.size ≤ index then .error "Out of range" else .ok (s.items.getD index d)

/-- `swap(other)`: exchange the backing buffers, the sizes and the
capacities of the two vectors. -/
def swap (a b : SimpleVector α) : SimpleVector α × SimpleVector α := (b, a)

/-- The move constructor `SimpleVector(SimpleVector&& other)`: steal the
buffer (`other.items_` becomes null), copy size and capacity, then zero
them in the source.  Returns `(constructed vector, state of the source)`. -/
def moveConstruct (other : SimpleVector α) : SimpleVector α × SimpleVector α :=
  (⟨other.items, other.size, other.capacity⟩, ⟨[], 0, 0⟩)

/-- The move assignment `operator=(SimpleVector&& other)` on distinct
objects: `Clear(); SimpleVector t(std::move(other)); swap(t);`.
Returns `(state of the assigned-to vector, state of the source)`. -/
def moveAssign (this other : SimpleVector α) : SimpleVector α × SimpleVector α :=
  let this1 := Clear this
  let p := moveConstruct other
  let q := swap this1 p.1
  (q.1, p.2)

/-- The constructor `SimpleVector(size_t size)`: `ArrayPtr<Type>` of
`size` default-constructed elements, `size_ = capacity_ = size`. -/
def ofSize (d : α) (n : Nat) : SimpleVector α := ⟨List.replicate n d, n, n⟩

/-- The constructor `SimpleVector(size_t size, const Type& value)`:
`ArrayPtr(size, value)` default-initializes `size` slots and then copies
`value` into each; `size_ = capacity_ = size`. -/
def ofSizeValue (d : α) (n : Nat) (v : α) : SimpleVector α :=
  ⟨writeLoop (fun _ => v) (List.replicate n d) 0 n, n, n⟩

/-- The constructor `SimpleVector(const ReserveProxyObj& capacity)`:
`IncreaseCapacity(capacity.GetCapacityToReserve())` on the
default-constructed state. -/
def ofCapacity (d : α) (n : Nat) : SimpleVector α :=
  IncreaseCapacity d empty n

/-- The private helper `CopyAndSwap(other)`:
`SimpleVector c(other.size()); std::copy(other.begin(), other.end(), c.begin()); swap(c);`.
The state after the swap is `c`'s state: a buffer of `other.size()` slots
holding `other`'s logical elements, with `size_ = capacity_ = other.size()`. -/
def CopyAndSwap (d : α) (other : SimpleVector α) : SimpleVector α :=
  let c := ofSize d other.size
  ⟨writeLoop (fun i => other.items.getD i d) c.items 0 other.size,
    c.size, c.capacity⟩

/-- The copy constructor `SimpleVector(const SimpleVector& other)`: the
member initializers are discarded when `CopyAndSwap(other)` swaps in the
freshly built copy, so the final state is exactly `CopyAndSwap`'s. -/
def copyCtor (d : α) (other : SimpleVector α) : SimpleVector α :=
  CopyAndSwap d other

/-- The copy constructor keeps `other` intact (it takes it by const
reference); the pair records `(the copy, the untouched source)`. -/
def copyCtorPair (d : α) (other : SimpleVector α) :
    SimpleVector α × SimpleVector α :=
  (copyCtor d other, other)

/-- The copy assignment `operator=(const SimpleVector& rhs)` on distinct
objects: `SimpleVector temp(rhs); swap(temp);`, so the assigned-to vector
ends in the state of a fresh copy of `rhs`. -/
def copyAssign (d : α) (this rhs : SimpleVector α) : SimpleVector α :=
  let temp := copyCtor d rhs
  (swap this temp).1

/-- The constructor `SimpleVector(std::initializer_list<Type> init)`:
`CopyAndSwap(init)` builds a buffer of `init.size()` slots and copies the
literal's elements in. -/
def ofList (d : α) (l : List α) : SimpleVector α :=
  ⟨writeLoop (fun i => l.getD i d) (List.replicate l.length d) 0 l.length,
    l.length, l.length⟩

/-- One mutating call of the public `SimpleVector` interface, acting on a
single vector. -/
inductive Op (α : Type) where
  | pushBack (v : α)
  | popBack
  | insertAt (p : Nat) (v : α)
  | eraseAt (p : Nat)
  | clear
  | resize (n : Nat)
  | reserve (n : Nat)
  deriving DecidableEq, Repr

/-- Apply one operation to the vector state. -/
def applyOp (d : α) (s : SimpleVector α) : Op α → SimpleVector α
  | .pushBack v => PushBack d s v
  | .popBack => PopBack s
  | .insertAt p v => (Insert d s p v).1
  | .eraseAt p => (Erase s p).1
  | .clear => Clear s
  | .resize n => Resize d s n
  | .reserve n => Reserve d s n

/-- The iterator argument of `Insert` must lie in `[begin(), end()]` and
that of `Erase` in `[begin(), end())` (passing anything else is undefined
behaviour in the source); all other operations are unconditionally
defined. -/
def validOp (s : SimpleVector α) : Op α → Bool
  | .insertAt p _ => decide (p ≤ s.size)
  | .eraseAt p => decide (s.size = 0 ∨ p < s.size)
  | _ => true

/-- Apply a list of operations in order. -/
def applyOps (d : α) (s : SimpleVector α) : List (Op α) → SimpleVector α
  | [] => s
  | op :: rest => applyOps d (applyOp d s op) rest

/-- Every operation of the trace is valid in the state it is applied to. -/
def validTrace (d : α) (s : SimpleVector α) : List (Op α) → Bool
  | [] => true
  | op :: rest => validOp s op && validTrace d (applyOp d s op) rest

/-- Number of elements an operation logically adds to the pre-state `s`. -/
def opAdded (s : SimpleVector α) : Op α → Nat
  | .pushBack _ => 1
  | .insertAt _ _ => 1
  | .resize n => n - s.size
  | _ => 0

/-- Number of elements an operation logically removes from the
pre-state `s`. -/
def opRemoved (s : SimpleVector α) : Op α → Nat
  | .popBack => min 1 s.size
  | .eraseAt _ => min 1 s.size
  | .clear => s.size
  | .resize n => s.size - n
  | _ => 0

/-- Total number of elements added along a trace. -/
def traceAdded (d : α) (s : SimpleVector α) : List (Op α) → Nat
  | [] => 0
  | op :: rest => opAdded s op + traceAdded d (applyOp d s op) rest

/-- Total number of elements removed along a trace. -/
def traceRemoved (d : α) (s : SimpleVector α) : List (Op α) → Nat
  | [] => 0
  | op :: rest => opRemoved s op + traceRemoved d (applyOp d s op) rest

/-- `std::equal(lhs.begin(), lhs.end(), rhs.begin(), rhs.end())` with
`operator==` on elements: equal lengths and element-wise equality,
checked front to back. -/
def stdEqual [DecidableEq α] : List α → List α → Bool
  | [], [] => true
  | a :: as, b :: bs => if a = b then stdEqual as bs else false
  | _, _ => false

/-- `std::lexicographical_compare(l1.begin(), l1.end(), l2.begin(), l2.end())`
with `operator<` on elements. -/
def lexLt [LinearOrder α] : List α → List α → Bool
  | _, [] => false
  | [], _ :: _ => true
  | a :: as, b :: bs => if a < b then true else if b < a then false else lexLt as bs

/-- The free `operator==` on `SimpleVector`. -/
def vecEq [DecidableEq α] (a b : SimpleVector α) : Bool :=
  stdEqual (toList a) (toList b)

/-- The free `operator!=`: `!(lhs == rhs)`. -/
def vecNe [DecidableEq α] (a b : SimpleVector α) : Bool := ! vecEq a b

/-- The free `operator<`. -/
def vecLt [LinearOrder α] (a b : SimpleVector α) : Bool :=
  lexLt (toList a) (toList b)

/-- The free `operator<=`: `!(rhs < lhs)`. -/
def vecLe [LinearOrder α] (a b : SimpleVector α) : Bool := ! vecLt b a

/-- The free `operator>`: `rhs < lhs`. -/
def vecGt [LinearOrder α] (a b : SimpleVector α) : Bool := vecLt b a

/-- The free `operator>=`: `!(lhs < rhs)`. -/
def vecGe [LinearOrder α] (a b : SimpleVector α) : Bool := ! vecLt a b

/-- The write loop of `ArrayPtr(size_t size, Type&& value)`:
`for (i = 0; i < size; ++i) raw_ptr_[i] = std::move(value);` — assigning
from `std::move(value)` stores the current value and leaves `value` in
its moved-from state, given by `moveRes`.  The arguments carry the
current buffer, the current contents of `value`, the next index, and the
number of remaining iterations. -/
def moveFillLoop (moveRes : α → α) (arr : List α) (v : α) (i : Nat) : Nat → List α
  | 0 => arr
  | k + 1 => moveFillLoop moveRes (arr.set i v) (moveRes v) (i + 1) k

/-- `ArrayPtr(size_t size, Type&& value)`: delegate to `ArrayPtr(size)`
(every slot assigned from a moved default value, hence holding `d`), then
run the move-fill loop. -/
def arrayPtrOfMoved (moveRes : α → α) (d : α) (n : Nat) (v : α) : List α :=
  moveFillLoop moveRes (List.replicate n d) v 0 n

/-- Repeated `PushBack` starting from the default-constructed vector:
`pushSeq d f n` is the state after pushing `f 0, …, f (n-1)`. -/
def pushSeq (d : α) (f : Nat → α) : Nat → SimpleVector α
  | 0 => empty
  | n + 1 => PushBack d (pushSeq d f n) (f n)

/-- A concrete well-formed example state used by witnesses: backing store
`[1, 2, 3]`, logical size 2, capacity 3. -/
def sample : SimpleVector Nat := ⟨[1, 2, 3], 2, 3⟩

theorem writeLoop_length (f : Nat → α) (l : List α) (a n : Nat) :
    (writeLoop f l a n).length = l.length := by
  induction n generalizing l a with
  | zero => rfl
  | succ n ih => simp [writeLoop, ih]

theorem writeLoop_eq (f : Nat → α) (l : List α) (a n : Nat) (h : a + n ≤ l.length) :
    writeLoop f l a n
      = l.take a ++ (List.range' a n).map f ++ l.drop (a + n) := by
  induction n generalizing l a with
  | zero => simp [writeLoop]
  | succ n ih =>
    have ha : a < l.length := by omega
    have hset : (l.set a (f a)) = l.take a ++ f a :: l.drop (a + 1) :=
      List.set_eq_take_cons_drop _ ha
    have hlen : a + 1 + n ≤ (l.set a (f a)).length := by
      simp [List.length_set]; omega
    rw [writeLoop, ih _ _ hlen, hset]
    have hta : (l.take a).length = a := List.length_take_of_le (le_of_lt ha)
    rw [List.range'_succ, List.map_cons]
    rw [List.take_append_eq_append_take, List.drop_append_eq_append_drop]
    simp only [hta]
    rw [List.take_of_length_le (by simp only [hta]; omega : (l.take a).length ≤ a + 1)]
    have h1 : a + 1 - a = 1 := by omega
    have h2 : a + 1 + n - a = n + 1 := by omega
    simp only [h1, h2, List.take_succ_cons, List.take_zero, List.drop_succ_cons]
    rw [List.drop_of_length_le (by simp only [hta]; omega : (l.take a).length ≤ a + 1 + n)]
    have h3 : (l.drop (a + 1)).drop n = l.drop (a + (n + 1)) := by
      rw [List.drop_drop]; congr 1; omega
    simp [h3, List.append_assoc]

theorem map_getD_range' (l : List α) (d : α) (a n : Nat) (h : a + n ≤ l.length) :
    (List.range' a n).map (fun i => l.getD i d) = (l.drop a).take n := by
  induction n generalizing a with
  | zero => simp
  | succ n ih =>
    have ha : a < l.length := by omega
    rw [List.range'_succ, List.map_cons, ih (a + 1) (by omega)]
    rw [List.drop_eq_getElem_cons ha, List.take_succ_cons,
      List.getD_eq_getElem l d ha]

theorem map_getD_range (l : List α) (d : α) (n : Nat) (h : n ≤ l.length) :
    (List.range n).map (fun i => l.getD i d) = l.take n := by
  rw [List.range_eq_range', map_getD_range' l d 0 n (by omega)]
  simp

theorem toList_length (s : SimpleVector α) (h : s.size ≤ s.items.length) :
    (toList s).length = s.size := by
  simp [toList]; omega

theorem set_take_succ (l : List α) (n : Nat) (v : α) (h : n < l.length) :
    (l.set n v).take (n + 1) = l.take n ++ [v] := by
  rw [List.set_eq_take_cons_drop _ h, List.take_append_eq_append_take]
  have hta : (l.take n).length = n := List.length_take_of_le (le_of_lt h)
  rw [List.take_of_length_le (by omega : (l.take n).length ≤ n + 1)]
  simp [hta]

theorem IncreaseCapacity_items (d : α) (s : SimpleVector α) (c : Nat)
    (hlen : s.size ≤ s.items.length) (hc : s.size ≤ c) :
    (IncreaseCapacity d s c).items = toList s ++ List.replicate (c - s.size) d := by
  show writeLoop (fun i => s.items.getD i d) (List.replicate c d) 0 s.size
      = toList s ++ List.replicate (c - s.size) d
  rw [writeLoop_eq _ _ _ _ (by simpa using hc)]
  simp only [List.take_zero, List.nil_append, Nat.zero_add]
  rw [map_getD_range' s.items d 0 s.size (by omega)]
  simp [toList, List.drop_replicate]

theorem IncreaseCapacity_spec (d : α) (s : SimpleVector α) (c : Nat)
    (hs : WF s) (hc : s.size ≤ c) :
    WF (IncreaseCapacity d s c) ∧
    (IncreaseCapacity d s c).size = s.size ∧
    (IncreaseCapacity d s c).capacity = c ∧
    toList (IncreaseCapacity d s c) = toList s := by
  obtain ⟨h1, h2⟩ := hs
  have hitems := IncreaseCapacity_items d s c (by omega) hc
  have hlenl : (toList s).length = s.size := toList_length s (by omega)
  refine ⟨⟨hc, ?_⟩, rfl, rfl, ?_⟩
  · show (IncreaseCapacity d s c).items.length = c
    rw [hitems]; simp [hlenl]; omega
  · show (IncreaseCapacity d s c).items.take s.size = toList s
    rw [hitems, List.take_append_eq_append_take, hlenl,
      List.take_of_length_le (le_of_eq hlenl)]
    simp

theorem IsSizeEqualsCapacity_spec (d : α) (s : SimpleVector α) (hs : WF s) :
    WF (IsSizeEqualsCapacity d s) ∧
    (IsSizeEqualsCapacity d s).size = s.size ∧
    s.size < (IsSizeEqualsCapacity d s).capacity ∧
    toList (IsSizeEqualsCapacity d s) = toList s ∧
    (IsSizeEqualsCapacity d s).capacity
      = if s.size = s.capacity then (if s.capacity = 0 then 1 else 2 * s.capacity)
        else s.capacity := by
  obtain ⟨h1, h2⟩ := hs
  unfold IsSizeEqualsCapacity
  by_cases h : s.size = s.capacity
  · have hc : s.size ≤ (if s.capacity = 0 then 1 else 2 * s.capacity) := by
      by_cases h0 : s.capacity = 0 <;> simp [h0] <;> omega
    obtain ⟨hwf, hsize, hcap, hlist⟩ := IncreaseCapacity_spec d s _ ⟨h1, h2⟩ hc
    refine ⟨?_, ?_, ?_, ?_, ?_⟩ <;> simp [h, hwf, hsize, hcap, hlist]
    by_cases h0 : s.capacity = 0 <;> simp [h0] <;> omega
  · have hlt : s.size < s.capacity := lt_of_le_of_ne h1 h
    simp [h, hlt, WF, h1, h2]

theorem PushBack_spec (d : α) (s : SimpleVector α) (v : α) (hs : WF s) :
    WF (PushBack d s v) ∧
    (PushBack d s v).size = s.size + 1 ∧
    toList (PushBack d s v) = toList s ++ [v] ∧
    (PushBack d s v).capacity
      = if s.size = s.capacity then (if s.capacity = 0 then 1 else 2 * s.capacity)
        else s.capacity := by
  obtain ⟨⟨hw1, hw2⟩, hsize, hlt, hlist, hcap⟩ := IsSizeEqualsCapacity_spec d s hs
  set t := IsSizeEqualsCapacity d s with ht
  have hbound : t.size < t.items.length := by omega
  refine ⟨⟨?_, ?_⟩, ?_, ?_, ?_⟩
  · show t.size + 1 ≤ t.capacity; omega
  · show (t.items.set t.size v).length = t.capacity; simp [hw2]
  · show t.size + 1 = s.size + 1; omega
  · show (t.items.set t.size v).take (t.size + 1) = toList s ++ [v]
    rw [set_take_succ _ _ _ hbound]
    rw [← hlist]; rfl
  · exact hcap

theorem Insert_spec (d : α) (s : SimpleVector α) (p : Nat) (v : α)
    (hs : WF s) (hp : p ≤ s.size) :
    WF (Insert d s p v).1 ∧
    (Insert d s p v).1.size = s.size + 1 ∧
    (Insert d s p v).2 = p ∧
    toList (Insert d s p v).1 = (toList s).take p ++ v :: (toList s).drop p ∧
    (Insert d s p v).1.capacity
      = if s.size = s.capacity then (if s.capacity = 0 then 1 else 2 * s.capacity)
        else s.capacity := by
  obtain ⟨⟨hw1, hw2⟩, hsize, hlt, hlist, hcap⟩ := IsSizeEqualsCapacity_spec d s hs
  set t := IsSizeEqualsCapacity d s with ht
  set L := t.items with hL
  have hlen : L.length = t.capacity := hw2
  have hnp : p ≤ t.size := by omega
  have hnlt : t.size < L.length := by omega
  have hset : (stdMoveBackward L p t.size).set p v
      = (L.take p ++ [v]) ++ ((L.drop p).take (t.size - p) ++ L.drop (t.size + 1)) := by
    unfold stdMoveBackward
    rw [List.append_assoc]
    have hfirst : (L.take (p + 1)).length = p + 1 :=
      List.length_take_of_le (by omega)
    rw [List.set_append_left _ _ (by omega)]
    congr 1
    rw [List.set_eq_take_cons_drop _ (by omega : p < (L.take (p + 1)).length)]
    rw [List.take_take, List.drop_of_length_le (by omega : (L.take (p + 1)).length ≤ p + 1)]
    simp [Nat.min_def]
  have hitems : (Insert d s p v).1.items
      = (L.take p ++ [v]) ++ ((L.drop p).take (t.size - p) ++ L.drop (t.size + 1)) := hset
  have hl1 : (L.take p ++ [v]).length = p + 1 := by
    simp [List.length_take_of_le (by omega : p ≤ L.length)]
  have hl2 : ((L.drop p).take (t.size - p)).length = t.size - p := by
    rw [List.length_take_of_le] ; simp; omega
  refine ⟨⟨?_, ?_⟩, ?_, rfl, ?_, ?_⟩
  · show t.size + 1 ≤ t.capacity; omega
  · show (Insert d s p v).1.items.length = t.capacity
    rw [hitems]
    simp only [List.length_append, List.length_take, List.length_drop,
      List.length_singleton]
    omega
  · show t.size + 1 = s.size + 1; omega
  · show (Insert d s p v).1.items.take (t.size + 1) = _
    have hz : t.size + 1 - (p + 1) - (t.size - p) = 0 := by omega
    rw [hitems, List.take_append_eq_append_take, hl1,
      List.take_of_length_le (by omega : (L.take p ++ [v]).length ≤ t.size + 1),
      List.take_append_eq_append_take, hl2,
      List.take_of_length_le (by omega : ((L.drop p).take (t.size - p)).length ≤ t.size + 1 - (p + 1)),
      hz, List.take_zero]
    have h1 : (toList s).take p = L.take p := by
      rw [← hlist]; show (L.take t.size).take p = _
      rw [List.take_take, Nat.min_eq_left hnp]
    have h2 : (toList s).drop p = (L.drop p).take (t.size - p) := by
      rw [← hlist]; show (L.take t.size).drop p = _
      rw [List.drop_take]
    rw [h1, h2]; simp
  · exact hcap

theorem Erase_spec (s : SimpleVector α) (p : Nat) (hs : WF s) (hp : p < s.size) :
    WF (Erase s p).1 ∧
    (Erase s p).1.size = s.size - 1 ∧
    (Erase s p).2 = p ∧
    (Erase s p).1.capacity = s.capacity ∧
    toList (Erase s p).1 = (toList s).take p ++ (toList s).drop (p + 1) ∧
    (Erase s p).1.items.drop (s.size - 1) = s.items.drop (s.size - 1) := by
  obtain ⟨hw1, hw2⟩ := hs
  have hpos : 0 < s.size := by omega
  set L := s.items with hL
  set n := s.size with hn
  have hself : Erase s p
      = (⟨stdMoveForward L (p + 1) n p, n - 1, s.capacity⟩, p) := by
    unfold Erase; simp [hpos]
  have harith : p + (n - (p + 1)) = n - 1 := by omega
  have hitems : (Erase s p).1.items
      = L.take p ++ ((L.drop (p + 1)).take (n - (p + 1)) ++ L.drop (n - 1)) := by
    rw [hself]
    show stdMoveForward L (p + 1) n p = _
    unfold stdMoveForward
    rw [harith, List.append_assoc]
  have hl1 : (L.take p).length = p := List.length_take_of_le (by omega)
  have hl2 : ((L.drop (p + 1)).take (n - (p + 1))).length = n - (p + 1) := by
    rw [List.length_take_of_le]; simp; omega
  refine ⟨⟨?_, ?_⟩, ?_, ?_, ?_, ?_, ?_⟩
  · show (Erase s p).1.size ≤ (Erase s p).1.capacity
    rw [hself]; show n - 1 ≤ s.capacity; omega
  · show (Erase s p).1.items.length = (Erase s p).1.capacity
    rw [hitems, hself]
    show _ = s.capacity
    simp only [List.length_append, List.length_take, List.length_drop]; omega
  · rw [hself]
  · rw [hself]
  · rw [hself]
  · show (Erase s p).1.items.take ((Erase s p).1.size) = _
    have hz : n - 1 - p - (n - (p + 1)) = 0 := by omega
    rw [hitems, hself]
    show (L.take p ++ ((L.drop (p + 1)).take (n - (p + 1)) ++ L.drop (n - 1))).take (n - 1) = _
    rw [List.take_append_eq_append_take, hl1,
      List.take_of_length_le (by omega : (L.take p).length ≤ n - 1),
      List.take_append_eq_append_take, hl2,
      List.take_of_length_le (by omega : ((L.drop (p + 1)).take (n - (p + 1))).length ≤ n - 1 - p),
      hz, List.take_zero]
    have h1 : (toList s).take p = L.take p := by
      show (L.take n).take p = _
      rw [List.take_take, Nat.min_eq_left (by omega)]
    have h2 : (toList s).drop (p + 1) = (L.drop (p + 1)).take (n - (p + 1)) := by
      show (L.take n).drop (p + 1) = _
      rw [List.drop_take]
    rw [h1, h2]; simp
  · show (Erase s p).1.items.drop (n - 1) = L.drop (n - 1)
    have hz : n - 1 - p - (n - (p + 1)) = 0 := by omega
    rw [hitems, List.drop_append_eq_append_drop,
      List.drop_of_length_le (hl1.trans_le (by omega)), hl1,
      List.drop_append_eq_append_drop,
      List.drop_of_length_le (hl2.trans_le (by omega)), hl2, hz, List.drop_zero]
    simp

theorem PopBack_spec (s : SimpleVector α) :
    (PopBack s).items = s.items ∧ (PopBack s).size = s.size - min 1 s.size ∧
    (PopBack s).capacity = s.capacity := by
  unfold PopBack
  by_cases h : 0 < s.size <;> simp [h] <;> omega

theorem Clear_spec (s : SimpleVector α) :
    (Clear s).items = s.items ∧ (Clear s).size = 0 ∧
    (Clear s).capacity = s.capacity := ⟨rfl, rfl, rfl⟩

theorem Reserve_spec (d : α) (s : SimpleVector α) (c : Nat) (hs : WF s) :
    WF (Reserve d s c) ∧
    (Reserve d s c).size = s.size ∧
    (Reserve d s c).capacity = max s.capacity c ∧
    toList (Reserve d s c) = toList s := by
  unfold Reserve
  by_cases h : s.capacity < c
  · obtain ⟨hwf, hsize, hcap, hlist⟩ :=
      IncreaseCapacity_spec d s c hs (le_trans hs.1 (le_of_lt h))
    simp [h, hwf, hsize, hcap, hlist]; omega
  · simp [h, hs]; omega

theorem Resize_spec (d : α) (s : SimpleVector α) (n : Nat) (hs : WF s) :
    WF (Resize d s n) ∧
    (Resize d s n).size = n ∧
    (Resize d s n).capacity
      = (if s.capacity < n then max n (2 * s.capacity) else s.capacity) ∧
    toList (Resize d s n)
      = (if s.size < n then toList s ++ List.replicate (n - s.size) d
         else (toList s).take n) := by
  obtain ⟨h1, h2⟩ := hs
  have hlenl : (toList s).length = s.size := toList_length s (by omega)
  by_cases hc : s.capacity < n
  · have hsn : s.size ≤ max n (2 * s.capacity) := by omega
    have hitems := IncreaseCapacity_items d s (max n (2 * s.capacity)) (by omega) hsn
    have hsize : s.size < n := by omega
    have hres : Resize d s n
        = ⟨(IncreaseCapacity d s (max n (2 * s.capacity))).items, n,
           max n (2 * s.capacity)⟩ := by
      unfold Resize; rw [if_pos hc]; rfl
    rw [hres]
    refine ⟨⟨?_, ?_⟩, rfl, ?_, ?_⟩
    · show n ≤ max n (2 * s.capacity); omega
    · show (IncreaseCapacity d s _).items.length = max n (2 * s.capacity)
      rw [hitems]; simp [hlenl]; omega
    · simp [hc]
    · rw [if_pos hsize]
      show (IncreaseCapacity d s _).items.take n = _
      rw [hitems, List.take_append_eq_append_take, hlenl,
        List.take_of_length_le (hlenl.trans_le (by omega)), List.take_replicate]
      have hmin : min (n - s.size) (max n (2 * s.capacity) - s.size) = n - s.size := by
        omega
      rw [hmin]
  · by_cases hn : s.size < n
    · have hcond : s.size + (n - s.size) ≤ s.items.length := by omega
      have hw := writeLoop_eq (fun _ => d) s.items s.size (n - s.size) hcond
      have hrep : (List.range' s.size (n - s.size)).map (fun _ => d)
          = List.replicate (n - s.size) d := by
        rw [List.map_const']; simp
      have hres : Resize d s n
          = ⟨writeLoop (fun _ => d) s.items s.size (n - s.size), n, s.capacity⟩ := by
        unfold Resize; rw [if_neg hc, if_pos hn]
      rw [hres]
      refine ⟨⟨?_, ?_⟩, rfl, ?_, ?_⟩
      · show n ≤ s.capacity; omega
      · show (writeLoop _ s.items s.size (n - s.size)).length = s.capacity
        rw [writeLoop_length]; omega
      · simp [hc]
      · rw [if_pos hn]
        show (writeLoop _ s.items s.size (n - s.size)).take n = _
        rw [hw, hrep]
        have hAB : (s.items.take s.size ++ List.replicate (n - s.size) d).length = n := by
          simp; omega
        rw [List.take_append_eq_append_take,
          List.take_of_length_le (le_of_eq hAB), hAB, Nat.sub_self, List.take_zero,
          List.append_nil]
        rfl
    · have hres : Resize d s n = ⟨s.items, n, s.capacity⟩ := by
        unfold Resize; rw [if_neg hc, if_neg hn]
      rw [hres]
      refine ⟨⟨?_, ?_⟩, rfl, ?_, ?_⟩
      · show n ≤ s.capacity; omega
      · exact h2
      · simp [hc]
      · rw [if_neg hn]
        show s.items.take n = (s.items.take s.size).take n
        rw [List.take_take, Nat.min_eq_left (by omega)]

theorem applyOp_spec (d : α) (s : SimpleVector α) (op : Op α) (hs : WF s)
    (hv : validOp s op = true) :
    WF (applyOp d s op) ∧
    (applyOp d s op).size + opRemoved s op = s.size + opAdded s op := by
  cases op with
  | pushBack v =>
    obtain ⟨hwf, hsize, -⟩ := PushBack_spec d s v hs
    exact ⟨hwf, by simp [applyOp, opRemoved, opAdded, hsize]⟩
  | popBack =>
    obtain ⟨-, hsize, hcap⟩ := PopBack_spec s
    refine ⟨⟨?_, ?_⟩, ?_⟩
    · show (PopBack s).size ≤ (PopBack s).capacity
      rw [hsize, hcap]; exact le_trans (by omega) hs.1
    · show (PopBack s).items.length = (PopBack s).capacity
      obtain ⟨hit, -, -⟩ := PopBack_spec s
      rw [hit, hcap]; exact hs.2
    · show (PopBack s).size + min 1 s.size = s.size + 0
      rw [hsize]; omega
  | insertAt p v =>
    have hp : p ≤ s.size := by simpa [validOp] using hv
    obtain ⟨hwf, hsize, -, -, -⟩ := Insert_spec d s p v hs hp
    exact ⟨hwf, by simp [applyOp, opRemoved, opAdded, hsize]⟩
  | eraseAt p =>
    have hp : s.size = 0 ∨ p < s.size := by simpa [validOp] using hv
    rcases hp with hp | hp
    · have hself : Erase s p = (s, p) := by unfold Erase; simp [hp]
      refine ⟨?_, ?_⟩ <;> simp [applyOp, hself, opRemoved, opAdded, hp, hs]
    · obtain ⟨hwf, hsize, -, -, -, -⟩ := Erase_spec s p hs hp
      refine ⟨hwf, ?_⟩
      show (Erase s p).1.size + min 1 s.size = s.size + 0
      rw [hsize]; omega
  | clear =>
    refine ⟨⟨Nat.zero_le _, hs.2⟩, ?_⟩
    show (Clear s).size + s.size = s.size + 0
    simp [Clear]
  | resize n =>
    obtain ⟨hwf, hsize, -, -⟩ := Resize_spec d s n hs
    refine ⟨hwf, ?_⟩
    show (Resize d s n).size + (s.size - n) = s.size + (n - s.size)
    rw [hsize]; omega
  | reserve n =>
    obtain ⟨hwf, hsize, -, -⟩ := Reserve_spec d s n hs
    exact ⟨hwf, by simp [applyOp, opRemoved, opAdded, hsize]⟩

theorem applyOps_spec (d : α) (s : SimpleVector α) (ops : List (Op α)) (hs : WF s)
    (hv : validTrace d s ops = true) :
    WF (applyOps d s ops) ∧
    (applyOps d s ops).size + traceRemoved d s ops
      = s.size + traceAdded d s ops := by
  induction ops generalizing s with
  | nil => exact ⟨hs, by simp [applyOps, traceAdded, traceRemoved]⟩
  | cons op rest ih =>
    have hv' : validOp s op = true ∧ validTrace d (applyOp d s op) rest = true := by
      simpa [validTrace, Bool.and_eq_true] using hv
    obtain ⟨hwf1, heq1⟩ := applyOp_spec d s op hs hv'.1
    obtain ⟨hwf2, heq2⟩ := ih (applyOp d s op) hwf1 hv'.2
    refine ⟨hwf2, ?_⟩
    show (applyOps d (applyOp d s op) rest).size
        + (opRemoved s op + traceRemoved d (applyOp d s op) rest)
      = s.size + (opAdded s op + traceAdded d (applyOp d s op) rest)
    omega

theorem validTrace_append_left (d : α) (s : SimpleVector α) (l1 l2 : List (Op α))
    (hv : validTrace d s (l1 ++ l2) = true) : validTrace d s l1 = true := by
  induction l1 generalizing s with
  | nil => rfl
  | cons op rest ih =>
    have hv' : validOp s op = true
        ∧ validTrace d (applyOp d s op) (rest ++ l2) = true := by
      simpa [validTrace, Bool.and_eq_true] using hv
    have := ih (applyOp d s op) hv'.2
    simp [validTrace, hv'.1, this]

theorem stdEqual_iff [DecidableEq α] (as bs : List α) :
    stdEqual as bs = true ↔ as = bs := by
  induction as generalizing bs with
  | nil => cases bs <;> simp [stdEqual]
  | cons a as ih =>
    cases bs with
    | nil => simp [stdEqual]
    | cons b bs =>
      by_cases hab : a = b
      · subst hab; simp [stdEqual, ih]
      · simp [stdEqual, hab]

theorem lexLt_iff_lex [LinearOrder α] (as bs : List α) :
    lexLt as bs = true ↔ List.Lex (· < ·) as bs := by
  induction as generalizing bs with
  | nil =>
    cases bs with
    | nil => simp [lexLt]
    | cons b bs => simp [lexLt]; exact List.Lex.nil
  | cons a as ih =>
    cases bs with
    | nil => simp [lexLt]
    | cons b bs =>
      rcases lt_trichotomy a b with hab | hab | hab
      · simp only [lexLt, if_pos hab, true_iff]
        exact List.Lex.rel hab
      · subst hab
        have hneg : ¬ a < a := lt_irrefl a
        show (if a < a then true else if a < a then false else lexLt as bs) = true ↔ _
        rw [if_neg hneg, if_neg hneg, ih, List.Lex.cons_iff]
      · show (if a < b then true else if b < a then false else lexLt as bs) = true ↔ _
        rw [if_neg (asymm hab), if_pos hab]
        simp only [Bool.false_eq_true, false_iff]
        intro hcon
        cases hcon with
        | cons h => exact absurd hab (lt_irrefl _)
        | rel h => exact lt_asymm hab h

theorem moveFillLoop_of_default (moveRes : α → α) (d : α)
    (hd : moveRes d = d) (arr : List α) (i k : Nat) :
    moveFillLoop moveRes arr d i k = writeLoop (fun _ => d) arr i k := by
  induction k generalizing arr i with
  | zero => rfl
  | succ k ih =>
    show moveFillLoop moveRes (arr.set i d) (moveRes d) (i + 1) k = _
    rw [hd, ih]
    rfl

theorem pushSeq_spec (d : α) (f : Nat → α) (n : Nat) :
    WF (pushSeq d f n) ∧ (pushSeq d f n).size = n ∧
    (pushSeq d f n).capacity = (if n = 0 then 0 else 2 ^ Nat.clog 2 n) := by
  induction n with
  | zero =>
    refine ⟨⟨le_refl 0, rfl⟩, rfl, rfl⟩
  | succ n ih =>
    obtain ⟨hwf, hsize, hcap⟩ := ih
    obtain ⟨hwf', hsize', -, hcap'⟩ := PushBack_spec d (pushSeq d f n) (f n) hwf
    refine ⟨hwf', ?_, ?_⟩
    · show (PushBack d (pushSeq d f n) (f n)).size = n + 1
      rw [hsize', hsize]
    show (PushBack d (pushSeq d f n) (f n)).capacity = _
    rw [hcap', hsize, hcap]
    by_cases hn : n = 0
    · subst hn
      norm_num [Nat.clog]
    · simp only [hn, if_false, Nat.succ_ne_zero]
      have hpow : (1 : Nat) ≤ 2 ^ Nat.clog 2 n := Nat.one_le_two_pow
      have hle : n ≤ 2 ^ Nat.clog 2 n := Nat.le_pow_clog (by norm_num) n
      by_cases heq : n = 2 ^ Nat.clog 2 n
      · have h2 : ¬ (2 : Nat) ^ Nat.clog 2 n = 0 := by positivity
        rw [if_pos heq, if_neg h2]
        have hclog : Nat.clog 2 (n + 1) = Nat.clog 2 n + 1 := by
          have hup : n + 1 ≤ 2 ^ (Nat.clog 2 n + 1) := by
            rw [pow_succ]
            omega
          have h1 : Nat.clog 2 (n + 1) ≤ Nat.clog 2 n + 1 :=
            (Nat.le_pow_iff_clog_le (by norm_num)).1 hup
          have h2' : ¬ (n + 1 ≤ 2 ^ Nat.clog 2 n) := by omega
          have h3 : ¬ (Nat.clog 2 (n + 1) ≤ Nat.clog 2 n) := by
            intro hcon
            exact h2' ((Nat.le_pow_iff_clog_le (by norm_num)).2 hcon)
          omega
        rw [hclog, pow_succ]
        ring
      · have hlt : n < 2 ^ Nat.clog 2 n := lt_of_le_of_ne hle heq
        rw [if_neg heq]
        have hclog : Nat.clog 2 (n + 1) = Nat.clog 2 n := by
          have h1 : Nat.clog 2 (n + 1) ≤ Nat.clog 2 n :=
            (Nat.le_pow_iff_clog_le (by norm_num)).1 (by omega)
          have h2 : Nat.clog 2 n ≤ Nat.clog 2 (n + 1) :=
            Nat.clog_mono_right 2 (by omega)
          omega
        rw [hclog]

/-- C1: from any well-formed starting state (every constructor
establishes well-formedness) and along any valid sequence of operations,
`0 ≤ size ≤ capacity` holds after every prefix, and `GetSize()` of the
final state equals the starting size plus the number of elements
logically added (one per `PushBack`/`Insert`, `n - size` for a growing
`Resize(n)`) minus the number logically removed (one per effective
`PopBack`/`Erase`, `size` per `Clear`, `size - n` for a shrinking
`Resize(n)`). -/
theorem c1_invariant_and_size_accounting (d : α) (s0 : SimpleVector α)
    (ops l1 l2 : List (Op α)) (h0 : WF s0) (hsplit : ops = l1 ++ l2)
    (hv : validTrace d s0 ops = true) :
    (WF (empty : SimpleVector α) ∧
      (∀ n : Nat, WF (ofSize d n)) ∧
      (∀ (n : Nat) (v : α), WF (ofSizeValue d n v)) ∧
      (∀ l : List α, WF (ofList d l)) ∧
      (∀ n : Nat, WF (ofCapacity d n)) ∧
      (∀ a : SimpleVector α, WF a → WF (copyCtor d a)) ∧
      (∀ a : SimpleVector α, WF a →
        WF (moveConstruct a).1 ∧ WF (moveConstruct a).2) ∧
      (∀ a b : SimpleVector α, WF a → WF b →
        WF (swap a b).1 ∧ WF (swap a b).2) ∧
      (∀ a b : SimpleVector α, WF a → WF b →
        WF (moveAssign b a).1 ∧ WF (moveAssign b a).2)) ∧
    (0 ≤ (applyOps d s0 l1).size
      ∧ (applyOps d s0 l1).size ≤ (applyOps d s0 l1).capacity) ∧
    GetSize (applyOps d s0 ops) + traceRemoved d s0 ops
      = s0.size + traceAdded d s0 ops := by
  subst hsplit
  have hv1 := validTrace_append_left d s0 l1 l2 hv
  obtain ⟨hwf1, -⟩ := applyOps_spec d s0 l1 h0 hv1
  obtain ⟨-, heq⟩ := applyOps_spec d s0 (l1 ++ l2) h0 hv
  refine ⟨⟨⟨le_refl 0, rfl⟩, ?_, ?_, ?_, ?_, ?_, ?_, ?_, ?_⟩,
    ⟨Nat.zero_le _, hwf1.1⟩, heq⟩
  · exact fun n => ⟨le_refl n, List.length_replicate n d⟩
  · exact fun n v => ⟨le_refl n, by simp [ofSizeValue, writeLoop_length]⟩
  · exact fun l => ⟨le_refl _, by simp [ofList, writeLoop_length]⟩
  · exact fun n => (IncreaseCapacity_spec d empty n ⟨le_refl 0, rfl⟩ (Nat.zero_le n)).1
  · exact fun a _ => ⟨le_refl _, by simp [copyCtor, CopyAndSwap, ofSize, writeLoop_length]⟩
  · exact fun a ha => ⟨ha, ⟨le_refl 0, rfl⟩⟩
  · exact fun a b ha hb => ⟨hb, ha⟩
  · exact fun a b ha hb => ⟨ha, ⟨le_refl 0, rfl⟩⟩

theorem c1_invariant_and_size_accounting_witness :
    (WF (empty : SimpleVector Nat)
      ∧ [Op.pushBack 10, Op.pushBack 20, Op.insertAt 1 15, Op.popBack,
          Op.eraseAt 0, Op.clear]
        = [Op.pushBack 10, Op.pushBack 20, Op.insertAt 1 15]
          ++ [Op.popBack, Op.eraseAt 0, Op.clear]
      ∧ validTrace 0 (empty : SimpleVector Nat)
          [Op.pushBack 10, Op.pushBack 20, Op.insertAt 1 15, Op.popBack,
            Op.eraseAt 0, Op.clear] = true) ∧
    ((WF (empty : SimpleVector Nat) ∧
      (∀ n : Nat, WF (ofSize 0 n)) ∧
      (∀ (n : Nat) (v : Nat), WF (ofSizeValue 0 n v)) ∧
      (∀ l : List Nat, WF (ofList 0 l)) ∧
      (∀ n : Nat, WF (ofCapacity 0 n)) ∧
      (∀ a : SimpleVector Nat, WF a → WF (copyCtor 0 a)) ∧
      (∀ a : SimpleVector Nat, WF a →
        WF (moveConstruct a).1 ∧ WF (moveConstruct a).2) ∧
      (∀ a b : SimpleVector Nat, WF a → WF b →
        WF (swap a b).1 ∧ WF (swap a b).2) ∧
      (∀ a b : SimpleVector Nat, WF a → WF b →
        WF (moveAssign b a).1 ∧ WF (moveAssign b a).2)) ∧
    (0 ≤ (applyOps 0 (empty : SimpleVector Nat)
            [Op.pushBack 10, Op.pushBack 20, Op.insertAt 1 15]).size
      ∧ (applyOps 0 (empty : SimpleVector Nat)
            [Op.pushBack 10, Op.pushBack 20, Op.insertAt 1 15]).size
          ≤ (applyOps 0 (empty : SimpleVector Nat)
              [Op.pushBack 10, Op.pushBack 20, Op.insertAt 1 15]).capacity) ∧
      GetSize (applyOps 0 (empty : SimpleVector Nat)
          [Op.pushBack 10, Op.pushBack 20, Op.insertAt 1 15, Op.popBack,
            Op.eraseAt 0, Op.clear])
        + traceRemoved 0 (empty : SimpleVector Nat)
            [Op.pushBack 10, Op.pushBack 20, Op.insertAt 1 15, Op.popBack,
              Op.eraseAt 0, Op.clear]
        = (empty : SimpleVector Nat).size
          + traceAdded 0 (empty : SimpleVector Nat)
              [Op.pushBack 10, Op.pushBack 20, Op.insertAt 1 15, Op.popBack,
                Op.eraseAt 0, Op.clear]) :=
  ⟨⟨by decide, by decide, by decide⟩,
    c1_invariant_and_size_accounting 0 empty _ _ _ (by decide) rfl (by decide)⟩

/-- C2: a `PushBack` or `Insert` that hits a full buffer
(`size == capacity`) sets the capacity to `max(1, 2 * old_capacity)`; a
`PushBack` on a non-full buffer never changes the capacity; and repeated
`PushBack` from the default-constructed vector yields, after `n` pushes,
size `n` and capacity `2 ^ ⌈log₂ n⌉` (that is, the capacity runs through
`1, 2, 4, 8, …`, doubling exactly when a push finds `size == capacity`). -/
theorem c2_growth_policy (d : α) (s : SimpleVector α) (v : α) (p : Nat)
    (f : Nat → α) (n : Nat) (hfull : s.size = s.capacity) :
    (PushBack d s v).capacity = max 1 (2 * s.capacity) ∧
    (Insert d s p v).1.capacity = max 1 (2 * s.capacity) ∧
    (∀ t : SimpleVector α, t.size ≠ t.capacity → (PushBack d t v).capacity = t.capacity) ∧
    (pushSeq d f n).size = n ∧
    (pushSeq d f n).capacity = (if n = 0 then 0 else 2 ^ Nat.clog 2 n) := by
  have hgrow : (IsSizeEqualsCapacity d s).capacity = max 1 (2 * s.capacity) := by
    unfold IsSizeEqualsCapacity
    rw [if_pos hfull]
    show (if s.capacity = 0 then 1 else 2 * s.capacity) = max 1 (2 * s.capacity)
    by_cases h0 : s.capacity = 0
    · simp [h0]
    · rw [if_neg h0]; omega
  obtain ⟨-, hsize, hcap⟩ := pushSeq_spec d f n
  refine ⟨hgrow, hgrow, ?_, hsize, hcap⟩
  intro t hne
  show (IsSizeEqualsCapacity d t).capacity = t.capacity
  unfold IsSizeEqualsCapacity
  rw [if_neg hne]

theorem c2_growth_policy_witness :
    (⟨[1, 2], 2, 2⟩ : SimpleVector Nat).size = (⟨[1, 2], 2, 2⟩ : SimpleVector Nat).capacity ∧
    ((PushBack 0 (⟨[1, 2], 2, 2⟩ : SimpleVector Nat) 9).capacity
        = max 1 (2 * (⟨[1, 2], 2, 2⟩ : SimpleVector Nat).capacity) ∧
      (Insert 0 (⟨[1, 2], 2, 2⟩ : SimpleVector Nat) 1 9).1.capacity
        = max 1 (2 * (⟨[1, 2], 2, 2⟩ : SimpleVector Nat).capacity) ∧
      (∀ t : SimpleVector Nat, t.size ≠ t.capacity →
        (PushBack 0 t 9).capacity = t.capacity) ∧
      (pushSeq 0 (fun i => i) 5).size = 5 ∧
      (pushSeq (0 : Nat) (fun i => i) 5).capacity
        = (if 5 = 0 then 0 else 2 ^ Nat.clog 2 5)) :=
  ⟨by decide,
    c2_growth_policy 0 (⟨[1, 2], 2, 2⟩ : SimpleVector Nat) 9 1 (fun i => i) 5 (by decide)⟩

/-- C3: `Resize(n)` on a well-formed vector of size `s` and capacity `c`:
when `n > c` the capacity becomes `max(n, 2c)`, the size becomes `n` and
the logical content is extended with `n - s` default values; when
`s < n ≤ c` the capacity is unchanged, the size becomes `n` and the
content is extended with `n - s` default values; when `n ≤ s` the
capacity is unchanged, the size becomes `n` and the content is truncated
to its first `n` elements; the capacity never decreases. -/
theorem c3_resize_cases (d : α) (s : SimpleVector α) (n : Nat) (hs : WF s) :
    (s.capacity < n →
      (Resize d s n).capacity = max n (2 * s.capacity) ∧
      (Resize d s n).size = n ∧
      toList (Resize d s n) = toList s ++ List.replicate (n - s.size) d) ∧
    (s.size < n → n ≤ s.capacity →
      (Resize d s n).capacity = s.capacity ∧
      (Resize d s n).size = n ∧
      toList (Resize d s n) = toList s ++ List.replicate (n - s.size) d) ∧
    (n ≤ s.size →
      (Resize d s n).capacity = s.capacity ∧
      (Resize d s n).size = n ∧
      toList (Resize d s n) = (toList s).take n) ∧
    s.capacity ≤ (Resize d s n).capacity := by
  obtain ⟨hwf, hsize, hcap, hlist⟩ := Resize_spec d s n hs
  refine ⟨?_, ?_, ?_, ?_⟩
  · intro hc
    have hn : s.size < n := by have := hs.1; omega
    rw [hcap, if_pos hc, hlist, if_pos hn]
    exact ⟨rfl, hsize, rfl⟩
  · intro hn hc
    have hc' : ¬ s.capacity < n := by omega
    rw [hcap, if_neg hc', hlist, if_pos hn]
    exact ⟨rfl, hsize, rfl⟩
  · intro hn
    have hc' : ¬ s.capacity < n := by have := hs.1; omega
    have hn' : ¬ s.size < n := by omega
    rw [hcap, if_neg hc', hlist, if_neg hn']
    exact ⟨rfl, hsize, rfl⟩
  · rw [hcap]
    by_cases hc : s.capacity < n
    · rw [if_pos hc]; omega
    · rw [if_neg hc]

theorem c3_resize_cases_witness :
    WF sample ∧
    ((sample.capacity < 5 →
      (Resize 0 sample 5).capacity = max 5 (2 * sample.capacity) ∧
      (Resize 0 sample 5).size = 5 ∧
      toList (Resize 0 sample 5) = toList sample ++ List.replicate (5 - sample.size) 0) ∧
    (sample.size < 5 → 5 ≤ sample.capacity →
      (Resize 0 sample 5).capacity = sample.capacity ∧
      (Resize 0 sample 5).size = 5 ∧
      toList (Resize 0 sample 5) = toList sample ++ List.replicate (5 - sample.size) 0) ∧
    (5 ≤ sample.size →
      (Resize 0 sample 5).capacity = sample.capacity ∧
      (Resize 0 sample 5).size = 5 ∧
      toList (Resize 0 sample 5) = (toList sample).take 5) ∧
    sample.capacity ≤ (Resize 0 sample 5).capacity) :=
  ⟨by decide, c3_resize_cases 0 sample 5 (by decide)⟩

/-- C4: `At(i)` on a well-formed vector fails with the out-of-range error
exactly when `i ≥ size`, and otherwise returns the element at logical
index `i`; in particular `At(size)` and `At(size + 1)` fail and
`At(size - 1)` succeeds when `size > 0`.  The embedding of `At` returns
only a value, reflecting that the method never modifies the vector. -/
theorem c4_at_bounds (d : α) (s : SimpleVector α) (i : Nat) (hs : WF s) :
    ((At d s i).isOk = true ↔ i < s.size) ∧
    (i < s.size → At d s i = .ok ((toList s).getD i d)) ∧
    At d s s.size = .error "Out of range" ∧
    At d s (s.size + 1) = .error "Out of range" ∧
    (0 < s.size → (At d s (s.size - 1)).isOk = true) := by
  refine ⟨?_, ?_, ?_, ?_, ?_⟩
  · unfold At
    by_cases h : s.size ≤ i
    · rw [if_pos h]
      constructor
      · intro hcon
        exact absurd hcon Bool.false_ne_true
      · intro hcon; omega
    · rw [if_neg h]
      constructor
      · intro _; omega
      · intro _; rfl
  · intro h
    unfold At
    rw [if_neg (by omega)]
    have hgo : s.items.getD i d = (toList s).getD i d := by
      unfold toList
      rw [List.getD_eq_getElem?_getD, List.getD_eq_getElem?_getD,
        List.getElem?_take_of_lt h]
    rw [hgo]
  · unfold At; rw [if_pos (le_refl _)]
  · unfold At; rw [if_pos (by omega)]
  · intro h
    unfold At
    rw [if_neg (by omega)]
    rfl

theorem c4_at_bounds_witness :
    WF sample ∧
    (((At 0 sample 1).isOk = true ↔ 1 < sample.size) ∧
    (1 < sample.size → At 0 sample 1 = .ok ((toList sample).getD 1 0)) ∧
    At 0 sample sample.size = .error "Out of range" ∧
    At 0 sample (sample.size + 1) = .error "Out of range" ∧
    (0 < sample.size → (At 0 sample (sample.size - 1)).isOk = true)) :=
  ⟨by decide, c4_at_bounds 0 sample 1 (by decide)⟩

/-- C5: on a well-formed vector, inserting `v` at any valid position
`p ≤ size` and then erasing at the iterator returned by `Insert` restores
the original logical content and size (the capacity may have grown). -/
theorem c5_insert_erase_roundtrip (d : α) (s : SimpleVector α) (p : Nat) (v : α)
    (hs : WF s) (hp : p ≤ s.size) :
    toList (Erase (Insert d s p v).1 (Insert d s p v).2).1 = toList s ∧
    (Erase (Insert d s p v).1 (Insert d s p v).2).1.size = s.size := by
  obtain ⟨hwf1, hsize1, hret1, hlist1, -⟩ := Insert_spec d s p v hs hp
  rw [hret1]
  have hp1 : p < (Insert d s p v).1.size := by omega
  obtain ⟨-, hsize2, -, -, hlist2, -⟩ := Erase_spec (Insert d s p v).1 p hwf1 hp1
  have hlen : (toList s).length = s.size := toList_length s (by
    obtain ⟨h1, h2⟩ := hs; omega)
  have hlenp : ((toList s).take p).length = p :=
    List.length_take_of_le (by omega)
  constructor
  · rw [hlist2, hlist1]
    rw [List.take_append_eq_append_take, hlenp,
      List.take_take, Nat.min_self, Nat.sub_self, List.take_zero, List.append_nil]
    rw [List.drop_append_eq_append_drop, hlenp,
      List.drop_of_length_le (by omega : ((toList s).take p).length ≤ p + 1)]
    have : p + 1 - p = 1 := by omega
    rw [this, List.nil_append, List.drop_succ_cons, List.drop_zero]
    exact List.take_append_drop p (toList s)
  · rw [hsize2, hsize1]; omega

theorem c5_insert_erase_roundtrip_witness :
    (WF sample ∧ 1 ≤ sample.size) ∧
    (toList (Erase (Insert 0 sample 1 9).1 (Insert 0 sample 1 9).2).1 = toList sample ∧
      (Erase (Insert 0 sample 1 9).1 (Insert (0 : Nat) sample 1 9).2).1.size
        = sample.size) :=
  ⟨⟨by decide, by decide⟩,
    c5_insert_erase_roundtrip 0 sample 1 9 (by decide) (by decide)⟩

/-- C6: after move construction `SimpleVector b(std::move(a))` or move
assignment `b = std::move(a)` (on distinct objects), `b` holds exactly
the backing store, size and capacity that `a` held before the move, and
`a` is left empty with size 0 and capacity 0. -/
theorem c6_move_semantics (a b : SimpleVector α) :
    (moveConstruct a).1.items = a.items ∧
    (moveConstruct a).1.size = a.size ∧
    (moveConstruct a).1.capacity = a.capacity ∧
    toList (moveConstruct a).1 = toList a ∧
    (moveConstruct a).2.size = 0 ∧
    (moveConstruct a).2.capacity = 0 ∧
    toList (moveConstruct a).2 = [] ∧
    (moveAssign b a).1.items = a.items ∧
    (moveAssign b a).1.size = a.size ∧
    (moveAssign b a).1.capacity = a.capacity ∧
    toList (moveAssign b a).1 = toList a ∧
    (moveAssign b a).2.size = 0 ∧
    (moveAssign b a).2.capacity = 0 ∧
    toList (moveAssign b a).2 = [] :=
  ⟨rfl, rfl, rfl, rfl, rfl, rfl, rfl, rfl, rfl, rfl, rfl, rfl, rfl, rfl⟩

/-- C7: `operator==` holds exactly when the two logical element sequences
are equal as lists (same length and element-wise equal); `operator<`,
`<=`, `>`, `>=` implement lexicographic comparison of the logical element
sequences (`List.Lex (· < ·)` is Mathlib's lexicographic strict order);
in particular `[1,2,3] < [1,2,4]` and `[1,2] < [1,2,3]`. -/
theorem c7_comparison_operators :
    (∀ (β : Type) (inst : DecidableEq β) (a b : @SimpleVector β),
      (@vecEq β inst a b = true ↔ toList a = toList b) ∧
      (@vecNe β inst a b = true ↔ toList a ≠ toList b)) ∧
    (∀ (β : Type) (inst : LinearOrder β) (a b : @SimpleVector β),
      (@vecLt β inst a b = true ↔ List.Lex (· < ·) (toList a) (toList b)) ∧
      (@vecLe β inst a b = true ↔ ¬ List.Lex (· < ·) (toList b) (toList a)) ∧
      (@vecGt β inst a b = true ↔ List.Lex (· < ·) (toList b) (toList a)) ∧
      (@vecGe β inst a b = true ↔ ¬ List.Lex (· < ·) (toList a) (toList b))) ∧
    vecLt (ofList 0 [1, 2, 3]) (ofList 0 [1, 2, 4]) = true ∧
    vecLt (ofList 0 [1, 2]) (ofList (0 : Nat) [1, 2, 3]) = true := by
  refine ⟨?_, ?_, by decide, by decide⟩
  · intro β inst a b
    constructor
    · exact stdEqual_iff (toList a) (toList b)
    · show (! vecEq a b) = true ↔ _
      rw [Bool.not_eq_true']
      rw [← Bool.not_eq_true (vecEq a b)]
      exact not_congr (stdEqual_iff (toList a) (toList b))
  · intro β inst a b
    refine ⟨lexLt_iff_lex _ _, ?_, lexLt_iff_lex _ _, ?_⟩
    · show (! vecLt b a) = true ↔ _
      rw [Bool.not_eq_true']
      rw [← Bool.not_eq_true (vecLt b a)]
      exact not_congr (lexLt_iff_lex (toList b) (toList a))
    · show (! vecLt a b) = true ↔ _
      rw [Bool.not_eq_true']
      rw [← Bool.not_eq_true (vecLt a b)]
      exact not_congr (lexLt_iff_lex (toList a) (toList b))

/-- C8 is refuted on the code: slots of the backing store in
`[size, capacity)` are not re-defaulted by the shrinking operations.
Concretely, pushing `1` onto the default-constructed `SimpleVector<int>`
(default value 0) and then calling `PopBack` — a valid operation
sequence — leaves size 0 and capacity 1, yet backing slot 0 (which lies
in `[size, capacity)`) still holds `1`, not the default `0`. -/
theorem c8_counterexample :
    validTrace 0 (empty : SimpleVector Nat) [Op.pushBack 1, Op.popBack] = true ∧
    (applyOps 0 (empty : SimpleVector Nat) [Op.pushBack 1, Op.popBack]).size = 0 ∧
    (applyOps 0 (empty : SimpleVector Nat) [Op.pushBack 1, Op.popBack]).capacity = 1 ∧
    (applyOps (0 : Nat) empty [Op.pushBack 1, Op.popBack]).items.getD 0 0 = 1 ∧
    (1 : Nat) ≠ 0 := by decide

/-- C8 (amended): immediately after a growth reallocation
(`IncreaseCapacity`, as called by the constructors, `Reserve`,
`PushBack`, `Insert` and `Resize`), the backing slots `[size, capacity)`
all hold the default value; but the shrinking operations do not restore
this: `PopBack` and `Clear` leave the backing store untouched, and
`Erase` leaves slots from index `size - 1` on (including the slot it
vacates) exactly as they were, so those slots may retain stale
non-default values. -/
theorem c8_amended_stale_slots (d : α) (s : SimpleVector α) (c : Nat)
    (hs : WF s) (hc : s.size ≤ c) :
    (IncreaseCapacity d s c).items.drop s.size = List.replicate (c - s.size) d ∧
    (PopBack s).items = s.items ∧
    (Clear s).items = s.items ∧
    (∀ p, p < s.size →
      (Erase s p).1.items.drop (s.size - 1) = s.items.drop (s.size - 1)) := by
  refine ⟨?_, (PopBack_spec s).1, rfl, ?_⟩
  · rw [IncreaseCapacity_items d s c (le_trans hs.1 (le_of_eq hs.2.symm)) hc]
    have hlen : (toList s).length = s.size := toList_length s (by
      obtain ⟨h1, h2⟩ := hs; omega)
    rw [List.drop_append_eq_append_drop, List.drop_of_length_le (le_of_eq hlen),
      hlen, Nat.sub_self, List.drop_zero, List.nil_append]
  · intro p hp
    exact (Erase_spec s p hs hp).2.2.2.2.2

theorem c8_amended_stale_slots_witness :
    (WF sample ∧ sample.size ≤ 5) ∧
    ((IncreaseCapacity 0 sample 5).items.drop sample.size
        = List.replicate (5 - sample.size) 0 ∧
      (PopBack sample).items = sample.items ∧
      (Clear sample).items = sample.items ∧
      (∀ p, p < sample.size →
        (Erase sample p).1.items.drop (sample.size - 1)
          = sample.items.drop (sample.size - 1))) :=
  ⟨⟨by decide, by decide⟩, c8_amended_stale_slots 0 sample 5 (by decide) (by decide)⟩

/-- C9: for `N ≥ 1` and an element type whose move operation leaves the
moved-from object default-valued (`moveRes x = d` for all `x`), the
constructor `ArrayPtr(N, std::move(v))` produces one real value followed
by `N - 1` default values: slot 0 holds `v` and slots `1 … N-1` hold `d`. -/
theorem c9_move_fill_constructor (moveRes : α → α) (d : α) (n : Nat) (v : α)
    (hmv : ∀ x, moveRes x = d) (hn : 1 ≤ n) :
    arrayPtrOfMoved moveRes d n v = v :: List.replicate (n - 1) d := by
  obtain ⟨m, rfl⟩ : ∃ m, n = m + 1 := ⟨n - 1, by omega⟩
  show moveFillLoop moveRes ((List.replicate (m + 1) d).set 0 v) (moveRes v) 1 m = _
  rw [hmv v, moveFillLoop_of_default moveRes d (hmv d) _ 1 m]
  rw [writeLoop_eq _ _ _ _ (by simp only [List.length_set, List.length_replicate]; omega)]
  rw [List.replicate_succ, List.set_cons_zero]
  have hmap : (List.range' 1 m).map (fun _ => d) = List.replicate m d := by
    rw [List.map_const']; simp
  rw [hmap]
  simp
  omega

theorem c9_move_fill_constructor_witness :
    ((∀ x : Nat, (fun _ => 0) x = 0) ∧ 1 ≤ 3) ∧
    arrayPtrOfMoved (fun _ => 0) 0 3 5 = 5 :: List.replicate 2 0 :=
  ⟨⟨fun _ => rfl, by decide⟩,
    c9_move_fill_constructor (fun _ => (0 : Nat)) 0 3 5 (fun _ => rfl) (by decide)⟩

/-- C10: copying a well-formed vector (copy constructor, or copy
assignment between distinct objects) yields a vector with the same
logical content and size — so it compares equal to the source — and
leaves the source untouched, but its capacity is the source's *size*:
`CopyAndSwap` swaps in a buffer of `other.size()` slots, discarding both
the member-initializer capacity and any slack the source had. -/
theorem c10_copy_capacity (d : α) (s t : SimpleVector α) (inst : DecidableEq α)
    (hs : WF s) :
    toList (copyCtor d s) = toList s ∧
    (copyCtor d s).size = s.size ∧
    (copyCtor d s).capacity = s.size ∧
    @vecEq α inst (copyCtor d s) s = true ∧
    (copyCtorPair d s).2 = s ∧
    toList (copyAssign d t s) = toList s ∧
    (copyAssign d t s).size = s.size ∧
    (copyAssign d t s).capacity = s.size := by
  obtain ⟨h1, h2⟩ := hs
  have hitems : (copyCtor d s).items = toList s := by
    show writeLoop (fun i => s.items.getD i d) (List.replicate s.size d) 0 s.size
        = toList s
    rw [writeLoop_eq _ _ _ _ (by simp)]
    rw [map_getD_range' s.items d 0 s.size (by omega)]
    simp [toList]
  have hlen : (toList s).length = s.size := toList_length s (by omega)
  have hlist : toList (copyCtor d s) = toList s := by
    show (copyCtor d s).items.take s.size = toList s
    rw [hitems, List.take_of_length_le (le_of_eq hlen)]
  refine ⟨hlist, rfl, rfl, ?_, rfl, hlist, rfl, rfl⟩
  show stdEqual (toList (copyCtor d s)) (toList s) = true
  rw [stdEqual_iff]
  exact hlist

theorem c10_copy_capacity_witness :
    WF sample ∧
    (toList (copyCtor 0 sample) = toList sample ∧
      (copyCtor 0 sample).size = sample.size ∧
      (copyCtor 0 sample).capacity = sample.size ∧
      vecEq (copyCtor 0 sample) sample = true ∧
      (copyCtorPair 0 sample).2 = sample ∧
      toList (copyAssign 0 empty sample) = toList sample ∧
      (copyAssign 0 empty sample).size = sample.size ∧
      (copyAssign (0 : Nat) empty sample).capacity = sample.size) :=
  ⟨by decide, c10_copy_capacity 0 sample empty instDecidableEqNat (by decide)⟩

end SimpleVector

end SimpleVec
